import Mathlib

/-!
Shallow embedding of `src/adapter/uagde.py`
(class `UncertaintyAwareGradualDomainEnsemble`) over exact rationals.

Conventions of the embedding:
  - a tensor row (a probability or logit vector over C classes) is a
    `List ℚ`; a batch of rows is a `List (List ℚ)`;
  - example ids are `Nat`; the per-example accumulators `Z` and `z`
    are functions `Nat → List ℚ`; a loader is a list of batches of ids
    (the image of an example is determined by its id, so the model is
    embedded as a function from id to its softmax output);
  - transcendental primitives of torch (`F.log_softmax`, the entropy
    `-Σ p log(p + 1e-20)` of `_entropy`) have no exact rational form, so
    they are taken as explicit function parameters (`lsm`, `ent`);
    theorems quantify over them, which covers the torch instantiation;
  - fallible torch calls (`torch.cat` on an empty list, use of the
    unbound local `momentum`, `.to` on `None`) become `Except`/`Option`.
-/

/-- `torch.amax(row)` over one row (dim 1 of the stacked tensor). -/
def amax : List ℚ → ℚ
  | [] => 0
  | h :: t => t.foldl max h

/-- `torch.amin(row)` over one row (dim 1 of the stacked tensor). -/
def amin : List ℚ → ℚ
  | [] => 0
  | h :: t => t.foldl min h

/-- Helper for `torch.argmax`: running first index of the strict maximum. -/
def argmaxAux : List ℚ → Nat → Nat → ℚ → Nat
  | [], _, bi, _ => bi
  | v :: t, i, bi, bv => if bv < v then argmaxAux t (i + 1) i v else argmaxAux t (i + 1) bi bv

/-- `torch.argmax(row)`: index of the first occurrence of the maximum. -/
def argmaxIdx : List ℚ → Nat
  | [] => 0
  | v :: t => argmaxAux t 1 0 v

/-- `.mean()` of a one dimensional tensor: sum divided by length
(a nonempty tensor is assumed wherever this models the code). -/
def tmean (l : List ℚ) : ℚ := l.sum / (l.length : ℚ)

/-- `torch.clip(x, lo, hi)`. -/
def torchClip (x lo hi : ℚ) : ℚ := max lo (min x hi)

/-- The confidence mask of `_pseudo_label_loss` (line 151 and 152):
`confidence = amax(ensemble_probs, 1) - amin(ensemble_probs, 1)` and
`mask = confidence >= alpha`, one Boolean per example of the batch. -/
def plMask (ensemble_probs : List (List ℚ)) (alpha : ℚ) : List Bool :=
  ensemble_probs.map (fun r => decide (alpha ≤ amax r - amin r))

/-- The per-example negative log likelihood of `_pseudo_label_loss`
(lines 153 and 154): `teacher_pred = argmax(ensemble_probs, dim=1)` and
`F.nll_loss(F.log_softmax(student_logits), teacher_pred, reduction=none)`,
with `lsm` standing for the transcendental `F.log_softmax` on one row. -/
def plNll (lsm : List ℚ → List ℚ) (student_logits ensemble_probs : List (List ℚ)) : List ℚ :=
  List.zipWith (fun lrow t => -((lsm lrow).getD t 0))
    student_logits (ensemble_probs.map argmaxIdx)

/-- The masked per-example loss tensor `nll * mask` of line 154
(the Boolean mask is cast to 0 or 1 and multiplied in). -/
def plMasked (lsm : List ℚ → List ℚ) (student_logits ensemble_probs : List (List ℚ))
    (alpha : ℚ) : List ℚ :=
  List.zipWith (fun v (b : Bool) => v * (if b then 1 else 0))
    (plNll lsm student_logits ensemble_probs) (plMask ensemble_probs alpha)

/-- `_pseudo_label_loss` (lines 150 to 155): returns
`((nll * mask).mean(), mask)`. Note line 154 takes `.mean()` over the
whole batch, not over the masked examples. -/
def pseudo_label_loss (lsm : List ℚ → List ℚ) (student_logits ensemble_probs : List (List ℚ))
    (alpha : ℚ) : ℚ × List Bool :=
  (tmean (plMasked lsm student_logits ensemble_probs alpha), plMask ensemble_probs alpha)

/-- Modelled from the spec words, for comparison with the code: the mean
over the MASKED examples only of the negative log likelihood, with the
unmasked examples excluded from the normalizing count, undefined (`none`)
when no example of the batch passes the mask. -/
def pseudo_label_loss_specMean (lsm : List ℚ → List ℚ)
    (student_logits ensemble_probs : List (List ℚ)) (alpha : ℚ) : Option ℚ :=
  let k := (plMask ensemble_probs alpha).count true
  if k = 0 then none
  else some ((plMasked lsm student_logits ensemble_probs alpha).sum / (k : ℚ))

/-! ### The quantile and `_calc_alpha` (lines 138 to 148) -/

/-- `torch.quantile` with the default linear interpolation, on an already
sorted nonempty list: with `n` the length and `p = q * (n - 1)`, the value
is `s[i] + (p - i) * (s[i+1] - s[i])` where `i = floor p` (the upper index
clamped to `n - 1`). -/
def quantileSorted (s : List ℚ) (q : ℚ) : ℚ :=
  let n := s.length
  let p : ℚ := q * ((n - 1 : ℕ) : ℚ)
  let i : ℕ := (Int.floor p).toNat
  s.getD i 0 + (p - (i : ℚ)) * (s.getD (min (i + 1) (n - 1)) 0 - s.getD i 0)

/-- `torch.quantile(input, q)`: sort the flattened input, then interpolate. -/
def torchQuantile (l : List ℚ) (q : ℚ) : ℚ :=
  quantileSorted (l.insertionSort (· ≤ ·)) q

/-- Error value of `torch.cat` applied to an empty Python list (line 144,
when the loader yields no batch at all). -/
def catEmptyError : String := "torch.cat expected a non-empty list of Tensors"

/-- Error value of `torch.quantile` on an empty input tensor (line 146,
when every batch of the loader is empty). -/
def quantileEmptyError : String := "quantile input tensor must be non-empty"

/-- `_calc_alpha` (lines 138 to 148): gather `Z[idx]` over the loader,
take the per-example spread `amax - amin` and return its
`confidence_q` quantile.  With an empty loader `torch.cat` raises, and
with only empty batches `torch.quantile` raises; both are `Except.error`. -/
def calc_alpha (Z : Nat → List ℚ) (loader : List (List Nat)) (confidence_q : ℚ) :
    Except String ℚ :=
  if loader.isEmpty then Except.error catEmptyError
  else
    let ids := loader.flatten
    if ids.isEmpty then Except.error quantileEmptyError
    else
      let confidence := ids.map (fun i => amax (Z i) - amin (Z i))
      Except.ok (torchQuantile confidence confidence_q)

/-! ### Epoch loss accounting (lines 20 to 39 and 41 to 57) -/

/-- The loss and count accounting shared by `_adapt_train_epoch`
(lines 22 to 36) and `_adapt_eval_epoch` (lines 43 to 54): per batch,
`total_loss += loss * mask.sum()` and `total_num += mask.sum()`, and at
the end `total_loss /= total_num`, a Python `ZeroDivisionError` (`none`)
when `total_num = 0`.  The student logits are a function of the batch
position and the example id, so that the optimizer steps of the train
epoch (which change the model between batches) are covered; the eval
epoch is the special case of a position independent function. -/
def epochStep (lsm : List ℚ → List ℚ) (studentLogits : Nat → Nat → List ℚ)
    (z : Nat → List ℚ) (alpha : ℚ) (acc : ℚ × ℕ) (b : ℕ × List ℕ) : ℚ × ℕ :=
  let r := pseudo_label_loss lsm (b.2.map (studentLogits b.1)) (b.2.map z) alpha
  (acc.1 + r.1 * (r.2.count true : ℚ), acc.2 + r.2.count true)

/-- The epoch loss `total_loss / total_num` (lines 36 and 54), folding
`epochStep` over the enumerated batches. -/
def adapt_epoch_loss (lsm : List ℚ → List ℚ) (studentLogits : Nat → Nat → List ℚ)
    (z : Nat → List ℚ) (batches : List (List Nat)) (alpha : ℚ) : Option ℚ :=
  let t := batches.enum.foldl (epochStep lsm studentLogits z alpha) (0, 0)
  if t.2 = 0 then none else some (t.1 / (t.2 : ℚ))

/-! ### The store and `_update_Z` (lines 97 to 136) -/

/-- The pseudo label store: the raw accumulator `Z` and its row
L1 normalized companion `z`, one row per example id. -/
structure Store where
  Z : Nat → List ℚ
  z : Nat → List ℚ

/-- `F.normalize(v, p=1)` on one row: divide by
`max(l1norm, eps)` with the torch default `eps = 1e-12`. -/
def l1normalize (v : List ℚ) : List ℚ :=
  v.map (fun x => x / max ((v.map (fun y => |y|)).sum) (1 / 10 ^ 12))

/-- One momentum blend `momentum * Z[idx] + (1 - momentum) * probs`
(line 132), elementwise on a row. -/
def blend (m : ℚ) (a b : List ℚ) : List ℚ :=
  List.zipWith (fun x y => m * x + (1 - m) * y) a b

/-- The momentum coefficient of line 124:
`clip(0.5 + slope * (current_entropy - ensemble_entropy), 0, 1)` except
that the first domain (`domain_idx = 1`) forces it to `0`. -/
def momentum (slope : ℚ) (domain_idx : Nat) (curEnt ensEnt : ℚ) : ℚ :=
  if domain_idx ≠ 1 then torchClip (1/2 + slope * (curEnt - ensEnt)) 0 1 else 0

/-- Lines 127 to 133 for one batch of ids: blend the `Z` rows of the
batch with the model output and refresh the normalized rows `z`. -/
def applyBatch (modelProbs : Nat → List ℚ) (m : ℚ) (ids : List Nat) (s : Store) : Store :=
  let Zn : Nat → List ℚ := fun i => if i ∈ ids then blend m (s.Z i) (modelProbs i) else s.Z i
  { Z := Zn, z := fun i => if i ∈ ids then l1normalize (Zn i) else s.z i }

/-- The inner update loop of lines 127 to 133 over a whole loader. -/
def applyLoader (modelProbs : Nat → List ℚ) (m : ℚ) (loader : List (List Nat))
    (s : Store) : Store :=
  loader.foldl (fun st ids => applyBatch modelProbs m ids st) s

/-- The softmax outputs the momentum computation gathers at lines 114
to 121: concatenation over the batches of the
model output rows (`total_current_probs`). -/
def gatherCur (modelProbs : Nat → List ℚ) (loader : List (List Nat)) : List (List ℚ) :=
  loader.flatten.map modelProbs

/-- The ensemble rows the momentum computation gathers at lines 114 to
120 (`total_ensemble_probs`, the rows `self.z[idx]`). -/
def gatherEns (s : Store) (loader : List (List Nat)) : List (List ℚ) :=
  loader.flatten.map s.z

/-- Error raised at line 132 when the Python local `momentum` is read
before the `d == domain_idx` branch ever assigned it. -/
def momentumUnboundError : String := "NameError: local variable momentum referenced before assignment"

/-- The loop of `_update_Z` over the `(domain, loader)` pairs (lines 106
to 133): past domains (`d < domain_idx`) are skipped; at `d = domain_idx`
the momentum is computed from the mean entropies (`ent` stands for the
transcendental `_entropy` of lines 97 to 101) of the gathered current and
ensemble probabilities; every loader from there on is blended into the
store with the momentum currently in scope. -/
def update_Z_aux (ent : List (List ℚ) → ℚ) (modelProbs : Nat → List ℚ) (slope : ℚ)
    (domain_idx : Nat) :
    List (Nat × List (List Nat)) → Option ℚ → Store → Except String Store
  | [], _, s => Except.ok s
  | (d, loader) :: rest, mom, s =>
    if d < domain_idx then update_Z_aux ent modelProbs slope domain_idx rest mom s
    else
      let momN : Option ℚ :=
        if d = domain_idx then
          some (momentum slope domain_idx (ent (gatherCur modelProbs loader))
            (ent (gatherEns s loader)))
        else mom
      match momN with
      | none => Except.error momentumUnboundError
      | some m =>
        update_Z_aux ent modelProbs slope domain_idx rest momN (applyLoader modelProbs m loader s)

/-- `_update_Z` (lines 103 to 136): fold the domain loaders into the
store.  `modelProbs` is the (eval mode, hence deterministic) composite
`softmax(model(img))` as a function of the example id, and `ent` the
transcendental `_entropy`. -/
def update_Z (ent : List (List ℚ) → ℚ) (modelProbs : Nat → List ℚ) (slope : ℚ)
    (loaders : List (Nat × List (List Nat))) (domain_idx : Nat) (s : Store) :
    Except String Store :=
  update_Z_aux ent modelProbs slope domain_idx loaders none s

/-! ### The sweep orchestrator `adapt` (lines 157 to 173) -/

/-- Insertion into a Python dict kept as an association list: replacing
an existing key keeps its position, a new key is appended. -/
def dictInsert {β : Type} (l : List (ℚ × β)) (k : ℚ) (v : β) : List (ℚ × β) :=
  if l.any (fun p => p.1 == k) then l.map (fun p => if p.1 == k then (k, v) else p)
  else l ++ [(k, v)]

/-- `performance_dict` of lines 159 to 164: one sweep per value of
`confidence_q_list`, keyed by the value.  `run` abstracts
`_adapt_train_eval` (the trained candidate model with its score). -/
def performanceDict {β : Type} (run : ℚ → β) (qs : List ℚ) : List (ℚ × β) :=
  qs.foldl (fun acc q => dictInsert acc q (run q)) []

/-- The selection loop of lines 166 to 171: running best over the dict
values, starting from `best_score = -inf` (the bottom of `WithBot ℚ`)
and `best_model = None`, updated on strict improvement only. -/
def selectAux {α : Type} : Option α → WithBot ℚ → List (α × ℚ) → Option α
  | best, _, [] => best
  | best, bestSc, c :: rest =>
    if bestSc < (c.2 : WithBot ℚ) then selectAux (some c.1) (c.2 : WithBot ℚ) rest
    else selectAux best bestSc rest

/-- Error raised by line 173 when `best_model` is still `None`:
`deepcopy(None).to(device)` fails. -/
def noneModelError : String := "AttributeError: NoneType object has no attribute to"

/-- `adapt` (lines 157 to 173): sweep, select the best candidate by
strict comparison, commit a deep copy of it as the current model (the
deep copy is the identity on the value in this embedding).  Returns the
committed model. -/
def adapt {α : Type} (run : ℚ → α × ℚ) (confidence_q_list : List ℚ) : Except String α :=
  match selectAux none ⊥ ((performanceDict run confidence_q_list).map Prod.snd) with
  | none => Except.error noneModelError
  | some m => Except.ok m

/-! ### Shared helper lemmas -/

/-- The momentum coefficient always lies in the unit interval. -/
lemma momentum_mem_unit (slope : ℚ) (d : ℕ) (c e : ℚ) :
    0 ≤ momentum slope d c e ∧ momentum slope d c e ≤ 1 := by
  unfold momentum torchClip
  split
  · exact ⟨le_max_left 0 _, max_le (by norm_num) (min_le_right _ 1)⟩
  · norm_num

/-- Masking with an all false mask yields a zero sum. -/
lemma zip_masked_sum_zero :
    ∀ (l : List ℚ) (m : List Bool), (∀ b ∈ m, b = false) →
      (List.zipWith (fun v (b : Bool) => v * (if b then 1 else 0)) l m).sum = 0
  | [], _, _ => by simp
  | _ :: _, [], _ => by simp
  | v :: l, b :: m, h => by
    have hb : b = false := h b (by simp)
    have ht := zip_masked_sum_zero l m (fun x hx => h x (by simp [hx]))
    rw [List.zipWith_cons_cons, List.sum_cons, hb]
    simpa using ht

/-- Length bookkeeping: with matching batch shapes the masked loss
tensor has one entry per example of the batch. -/
lemma plMasked_length (lsm : List ℚ → List ℚ) (sl ep : List (List ℚ)) (a : ℚ)
    (h : sl.length = ep.length) :
    (plMasked lsm sl ep a).length = ep.length := by
  simp [plMasked, plNll, plMask, List.length_zipWith, h]

/-! ### C1 -/

/-- C1, counterexample.  The claim states that `_pseudo_label_loss`
returns the mean over the MASKED examples only and fails by a zero
division on an empty mask.  On the batch `student_logits = [[-1,-9],[0,0]]`,
`ensemble_probs = [[9/10,1/10],[1/2,1/2]]`, `alpha = 1/2` (mask
`[true, false]`, masked NLL `1`), the code divides by the batch size 2
and returns `1/2`, while the claimed masked mean is `1`; and on a batch
whose mask is empty the code returns `0` instead of failing. -/
theorem pseudo_label_loss_mean_counterexample :
    (pseudo_label_loss (fun r => r) [[-1, -9], [0, 0]] [[9/10, 1/10], [1/2, 1/2]] (1/2)).1
        = 1/2
    ∧ pseudo_label_loss_specMean (fun r => r) [[-1, -9], [0, 0]]
        [[9/10, 1/10], [1/2, 1/2]] (1/2) = some 1
    ∧ (1/2 : ℚ) ≠ 1
    ∧ (pseudo_label_loss (fun r => r) [[0, 0]] [[1/2, 1/2]] 1).1 = 0
    ∧ pseudo_label_loss_specMean (fun r => r) [[0, 0]] [[1/2, 1/2]] 1 = none := by
  refine ⟨?_, ?_, by norm_num, ?_, ?_⟩ <;>
    norm_num [pseudo_label_loss, pseudo_label_loss_specMean, plMasked, plMask, plNll,
      tmean, amax, amin, argmaxIdx, argmaxAux]

/-- C1, amended.  For every batch (of matching shapes), the value
returned by `_pseudo_label_loss` is the sum over the masked examples of
the negative log likelihood at the teacher label divided by the FULL
batch size: unmasked examples contribute zero to the numerator but stay
in the normalizing count, so the code value equals the masked mean
scaled by `(number of masked examples) / (batch size)`, and when no
example passes the mask the returned loss is `0`, not a zero division
fault. -/
theorem pseudo_label_loss_batch_mean (lsm : List ℚ → List ℚ) (sl ep : List (List ℚ))
    (a : ℚ) (h : sl.length = ep.length) :
    (pseudo_label_loss_specMean lsm sl ep a = none → (pseudo_label_loss lsm sl ep a).1 = 0)
    ∧ ∀ v, pseudo_label_loss_specMean lsm sl ep a = some v →
        (pseudo_label_loss lsm sl ep a).1
          = v * (((pseudo_label_loss lsm sl ep a).2.count true : ℚ) / (ep.length : ℚ)) := by
  constructor
  · intro hn
    have hk : (plMask ep a).count true = 0 := by
      by_contra hk
      simp [pseudo_label_loss_specMean, hk] at hn
    have hall : ∀ b ∈ plMask ep a, b = false := by
      intro b hb
      cases b with
      | false => rfl
      | true => exact absurd hb (List.count_eq_zero.mp hk)
    have hz : (plMasked lsm sl ep a).sum = 0 :=
      zip_masked_sum_zero _ _ hall
    simp [pseudo_label_loss, tmean, hz]
  · intro v hv
    have hk : (plMask ep a).count true ≠ 0 := by
      intro hk
      simp [pseudo_label_loss_specMean, hk] at hv
    have hveq : v = (plMasked lsm sl ep a).sum / (((plMask ep a).count true : ℕ) : ℚ) := by
      simp only [pseudo_label_loss_specMean] at hv
      rw [if_neg hk] at hv
      exact (Option.some.inj hv).symm
    have hkq : (((plMask ep a).count true : ℕ) : ℚ) ≠ 0 := by
      exact_mod_cast hk
    simp only [pseudo_label_loss, tmean, plMasked_length lsm sl ep a h, hveq]
    field_simp

/-- C1, witness for the amended theorem at a concrete batch. -/
theorem pseudo_label_loss_batch_mean_witness :
    (pseudo_label_loss (fun r => r) [[-1, -9], [0, 0]] [[9/10, 1/10], [1/2, 1/2]] (1/2)).1
      = 1 * (((pseudo_label_loss (fun r => r) [[-1, -9], [0, 0]]
          [[9/10, 1/10], [1/2, 1/2]] (1/2)).2.count true : ℚ) / 2) := by
  have h := (pseudo_label_loss_batch_mean (fun r => r) [[-1, -9], [0, 0]]
    [[9/10, 1/10], [1/2, 1/2]] (1/2) rfl).2 1
    (by norm_num [pseudo_label_loss_specMean, plMasked, plMask, plNll, amax, amin,
      argmaxIdx, argmaxAux])
  simpa using h

/-! ### C2 -/

/-- C2.  For every input batch, the Boolean mask returned by
`_pseudo_label_loss` satisfies, at every example position `i` of the
batch, `mask[i] = (amax(ensemble_probs[i]) - amin(ensemble_probs[i]) >= alpha)`;
the comparison is non strict, so a spread equal to `alpha` is included. -/
theorem pseudo_label_loss_mask_spec (lsm : List ℚ → List ℚ) (sl ep : List (List ℚ))
    (a : ℚ) (i : ℕ) (h : i < ep.length) :
    (pseudo_label_loss lsm sl ep a).2.getD i false
      = decide (a ≤ amax (ep.getD i []) - amin (ep.getD i [])) := by
  have hi : ep[i]? = some ep[i] := List.getElem?_eq_getElem h
  simp [pseudo_label_loss, plMask, List.getD_eq_getElem?_getD, List.getElem?_map, hi]

/-- C2, witness at the boundary: a spread exactly equal to `alpha`
(`amax - amin = 3/4 - 1/4 = 1/2 = alpha`) is included in the mask. -/
theorem pseudo_label_loss_mask_boundary_witness :
    0 < ([[(3 : ℚ)/4, 1/4]] : List (List ℚ)).length
    ∧ (pseudo_label_loss (fun r => r) [[0, 0]] [[3/4, 1/4]] (1/2)).2.getD 0 false = true := by
  refine ⟨by norm_num, ?_⟩
  rw [pseudo_label_loss_mask_spec (fun r => r) [[0, 0]] [[3/4, 1/4]] (1/2) 0 (by norm_num)]
  norm_num [amax, amin]

/-! ### C3 -/

/-- C3.  In every store update the momentum coefficient is
`clip(0.5 + slope * (curEnt - ensEnt), 0, 1)` — hence always in `[0, 1]`,
saturating at `0` and at `1` for extreme entropy differences — except
that it is forced to `0`; and it is forced to `0` for EVERY slope and
entropy value exactly when the domain index processed is `1` (the first
domain of the 1 based sequence). -/
theorem momentum_formula_props (slope curEnt ensEnt : ℚ) (d : ℕ) :
    (0 ≤ momentum slope d curEnt ensEnt ∧ momentum slope d curEnt ensEnt ≤ 1)
    ∧ (d ≠ 1 → momentum slope d curEnt ensEnt
        = torchClip (1/2 + slope * (curEnt - ensEnt)) 0 1)
    ∧ (d ≠ 1 → 1/2 + slope * (curEnt - ensEnt) ≤ 0 → momentum slope d curEnt ensEnt = 0)
    ∧ (d ≠ 1 → 1 ≤ 1/2 + slope * (curEnt - ensEnt) → momentum slope d curEnt ensEnt = 1)
    ∧ ((∀ s c e : ℚ, momentum s d c e = 0) ↔ d = 1) := by
  refine ⟨momentum_mem_unit slope d curEnt ensEnt, ?_, ?_, ?_, ?_, ?_⟩
  · intro hd; simp [momentum, hd]
  · intro hd hle
    simp only [momentum, hd, if_pos, ne_eq, not_false_iff, if_true, torchClip]
    rw [max_eq_left ((min_le_left _ 1).trans hle)]
  · intro hd hge
    simp only [momentum, hd, if_pos, ne_eq, not_false_iff, if_true, torchClip]
    rw [min_eq_right hge, max_eq_right]
    norm_num
  · intro hall
    by_contra hd
    have h0 := hall 0 0 0
    simp [momentum, hd, torchClip] at h0
    norm_num at h0
  · intro hd s c e
    simp [momentum, hd]

/-- C3, witness: at the first domain the momentum is `0` whatever the
slope and entropies; away from it the clip saturates at `1`. -/
theorem momentum_formula_props_witness :
    momentum 5 1 100 0 = 0 ∧ momentum 1 2 10 0 = 1 := by
  constructor
  · exact (momentum_formula_props 5 100 0 1).2.2.2.2.mpr rfl 5 100 0
  · exact (momentum_formula_props 1 10 0 2).2.2.2.1 (by norm_num) (by norm_num)

/-! ### C8 -/

/-- C8.  Called on an empty loader (a loader yielding no batch at all),
`_calc_alpha` has no data to take a quantile over: the `torch.cat` call
of line 144 raises, so the operation fails with an error propagated to
the caller instead of returning a value. -/
theorem calc_alpha_empty_loader_error (Z : Nat → List ℚ) (q : ℚ) :
    calc_alpha Z [] q = Except.error catEmptyError := rfl

/-! ### C10 -/

/-- C10.  `adapt` called with an empty `confidence_q_list` produces no
candidate: `performance_dict` stays empty, `best_model` stays `None`,
and the commit step `deepcopy(best_model).to(device)` of line 173 fails,
so the current model is never replaced by a valid candidate. -/
theorem adapt_empty_qlist_error (α : Type) (run : ℚ → α × ℚ) :
    adapt run [] = Except.error noneModelError := rfl

/-! ### C9 -/

/-- The second component of the epoch fold accumulates the mask counts. -/
lemma epoch_foldl_snd (lsm : List ℚ → List ℚ) (sl : Nat → Nat → List ℚ)
    (z : Nat → List ℚ) (alpha : ℚ) :
    ∀ (l : List (ℕ × List ℕ)) (p : ℚ × ℕ),
      (l.foldl (epochStep lsm sl z alpha) p).2
        = p.2 + (l.map (fun b => (plMask (b.2.map z) alpha).count true)).sum
  | [], p => by simp
  | b :: l, p => by
    rw [List.foldl_cons, epoch_foldl_snd lsm sl z alpha l]
    simp [epochStep, pseudo_label_loss]
    ring

/-- C9.  In `_adapt_train_epoch` and `_adapt_eval_epoch` the epoch loss
is divided by the total number of mask passing examples accumulated over
all batches; the division fails (Python `ZeroDivisionError`, here
`none`) exactly when the confidence mask of every batch is empty, so a
successful epoch requires at least one example of the loader passing the
mask. -/
theorem adapt_epoch_loss_none_iff_all_masks_empty (lsm : List ℚ → List ℚ)
    (sl : Nat → Nat → List ℚ) (z : Nat → List ℚ) (batches : List (List Nat)) (alpha : ℚ) :
    adapt_epoch_loss lsm sl z batches alpha = none
      ↔ ∀ ids ∈ batches, (plMask (ids.map z) alpha).count true = 0 := by
  have hmm : batches.enum.map (fun b => (plMask (b.2.map z) alpha).count true)
      = (batches.enum.map Prod.snd).map (fun ids => (plMask (ids.map z) alpha).count true) :=
    (List.map_map (fun (ids : List ℕ) => (plMask (ids.map z) alpha).count true)
      Prod.snd batches.enum).symm
  have hsnd : (batches.enum.foldl (epochStep lsm sl z alpha) (0, 0)).2
      = (batches.map (fun ids => (plMask (ids.map z) alpha).count true)).sum := by
    rw [epoch_foldl_snd, hmm]
    simp
  constructor
  · intro h
    have hz : (batches.enum.foldl (epochStep lsm sl z alpha) (0, 0)).2 = 0 := by
      by_contra hne
      simp only [adapt_epoch_loss, if_neg hne] at h
      exact Option.some_ne_none _ h
    intro ids hids
    exact List.sum_eq_zero_iff.mp (hsnd.symm.trans hz) _ (List.mem_map.mpr ⟨ids, hids, rfl⟩)
  · intro h
    have hz : (batches.enum.foldl (epochStep lsm sl z alpha) (0, 0)).2 = 0 := by
      rw [hsnd, List.sum_eq_zero_iff]
      intro x hx
      rcases List.mem_map.mp hx with ⟨ids, hids, rfl⟩
      exact h ids hids
    simp only [adapt_epoch_loss]
    rw [if_pos hz]

/-! ### C6 -/

/-- A batch update leaves the rows of ids outside the batch unchanged. -/
lemma applyBatch_frame (mp : Nat → List ℚ) (m : ℚ) (ids : List Nat) (s : Store)
    (i : Nat) (h : i ∉ ids) :
    (applyBatch mp m ids s).Z i = s.Z i ∧ (applyBatch mp m ids s).z i = s.z i := by
  simp [applyBatch, if_neg h]

/-- A loader update leaves the rows of ids outside every batch unchanged. -/
lemma applyLoader_frame (mp : Nat → List ℚ) (m : ℚ) :
    ∀ (loader : List (List Nat)) (s : Store) (i : Nat), (∀ ids ∈ loader, i ∉ ids) →
      (applyLoader mp m loader s).Z i = s.Z i ∧ (applyLoader mp m loader s).z i = s.z i
  | [], _, _, _ => ⟨rfl, rfl⟩
  | ids :: rest, s, i, h => by
    have hb := applyBatch_frame mp m ids s i (h ids (by simp))
    have hr := applyLoader_frame mp m rest (applyBatch mp m ids s) i
      (fun ids' hm => h ids' (by simp [hm]))
    exact ⟨hr.1.trans hb.1, hr.2.trans hb.2⟩

/-- Frame lemma for the `_update_Z` loop: an id occurring in no loader of
a domain at or after `domain_idx` keeps its `Z` and `z` rows. -/
lemma update_Z_aux_frame (ent : List (List ℚ) → ℚ) (mp : Nat → List ℚ) (slope : ℚ)
    (di : Nat) :
    ∀ (loaders : List (Nat × List (List Nat))) (mom : Option ℚ) (s s' : Store) (i : Nat),
      update_Z_aux ent mp slope di loaders mom s = Except.ok s' →
      (∀ p ∈ loaders, di ≤ p.1 → ∀ ids ∈ p.2, i ∉ ids) →
      s'.Z i = s.Z i ∧ s'.z i = s.z i
  | [], mom, s, s', i, hok, _ => by
    simp only [update_Z_aux] at hok
    cases hok
    exact ⟨rfl, rfl⟩
  | (d, loader) :: rest, mom, s, s', i, hok, h => by
    simp only [update_Z_aux] at hok
    by_cases hd : d < di
    · rw [if_pos hd] at hok
      exact update_Z_aux_frame ent mp slope di rest mom s s' i hok
        (fun p hp => h p (by simp [hp]))
    · rw [if_neg hd] at hok
      set momN : Option ℚ :=
        if d = di then
          some (momentum slope di (ent (gatherCur mp loader)) (ent (gatherEns s loader)))
        else mom with hmomN
      cases hmom : momN with
      | none => rw [hmom] at hok; exact absurd hok (by simp)
      | some m =>
        rw [hmom] at hok
        have hnot : ∀ ids ∈ loader, i ∉ ids :=
          h (d, loader) (by simp) (Nat.le_of_not_lt hd)
        have hl := applyLoader_frame mp m loader s i hnot
        have hr := update_Z_aux_frame ent mp slope di rest (some m)
          (applyLoader mp m loader s) s' i hok (fun p hp => h p (by simp [hp]))
        exact ⟨hr.1.trans hl.1, hr.2.trans hl.2⟩

/-- C6.  The store update for `domain_idx` touches only rows of examples
occurring in a domain of index at least `domain_idx`: an example id
appearing only in strictly earlier domains keeps its `Z` and `z` rows
(past domains are frozen). -/
theorem update_Z_frame_past_domains (ent : List (List ℚ) → ℚ) (mp : Nat → List ℚ)
    (slope : ℚ) (loaders : List (Nat × List (List Nat))) (di : Nat) (s s' : Store) (i : Nat)
    (hok : update_Z ent mp slope loaders di s = Except.ok s')
    (hpast : ∀ p ∈ loaders, di ≤ p.1 → ∀ ids ∈ p.2, i ∉ ids) :
    s'.Z i = s.Z i ∧ s'.z i = s.z i :=
  update_Z_aux_frame ent mp slope di loaders none s s' i hok hpast

/-- C6, witness: a concrete update at `domain_idx = 1` where id `7`
occurs only in domain `0`; its rows survive unchanged. -/
theorem update_Z_frame_past_domains_witness :
    ((update_Z (fun _ => (0 : ℚ)) (fun _ => [1]) 0 [(0, [[7]]), (1, [[0]])] 1
        ⟨fun _ => [1], fun _ => [1]⟩).toOption.map fun t => (t.Z 7, t.z 7))
      = some ([1], [1]) := by
  obtain ⟨t, ht⟩ : ∃ t, update_Z (fun _ => (0 : ℚ)) (fun _ => [1]) 0
      [(0, [[7]]), (1, [[0]])] 1 ⟨fun _ => [1], fun _ => [1]⟩ = Except.ok t := ⟨_, rfl⟩
  have h := update_Z_frame_past_domains (fun _ => (0 : ℚ)) (fun _ => [1]) 0
    [(0, [[7]]), (1, [[0]])] 1 ⟨fun _ => [1], fun _ => [1]⟩ t 7 ht (by decide)
  rw [ht]
  simp [Except.toOption, h.1, h.2]

/-! ### C7 -/

/-- The selection loop never moves off its best when no later score
strictly improves on the running best score. -/
lemma selectAux_no_improve {α : Type} :
    ∀ (l : List (α × ℚ)) (best : Option α) (b : WithBot ℚ),
      (∀ c ∈ l, (c.2 : WithBot ℚ) ≤ b) → selectAux best b l = best
  | [], _, _, _ => rfl
  | c :: l, best, b, h => by
    simp only [selectAux]
    rw [if_neg (not_lt.mpr (h c (by simp)))]
    exact selectAux_no_improve l best b (fun x hx => h x (by simp [hx]))

/-- The selection loop returns the first candidate whose score equals
the maximum, whenever the running best score is below the maximum. -/
lemma selectAux_finds_first_max {α : Type} :
    ∀ (l : List (α × ℚ)) (best : Option α) (b : WithBot ℚ) (M : ℚ),
      (l.map Prod.snd).maximum = some M → b < (M : WithBot ℚ) →
      selectAux best b l = (l.find? fun c => decide (c.2 = M)).map Prod.fst
  | [], best, b, M, hM, _ => by simp [List.maximum_nil] at hM
  | c :: l, best, b, M, hM, hb => by
    have hmem0 : c.2 ≤ M :=
      List.le_maximum_of_mem (List.mem_map_of_mem Prod.snd (List.mem_cons_self c l)) hM
    by_cases hcM : c.2 = M
    · simp only [selectAux]
      rw [if_pos (by rw [hcM]; exact hb)]
      have hrest : ∀ x ∈ l, (x.2 : WithBot ℚ) ≤ (c.2 : WithBot ℚ) := by
        intro x hx
        have hx0 : x.2 ≤ M := List.le_maximum_of_mem
          (List.mem_map_of_mem Prod.snd (List.mem_cons_of_mem c hx)) hM
        exact WithBot.coe_le_coe.mpr (hcM ▸ hx0)
      rw [selectAux_no_improve l (some c.1) (c.2 : WithBot ℚ) hrest]
      rw [List.find?_cons_of_pos _ (by simp [hcM])]
      rfl
    · have hlt : (c.2 : WithBot ℚ) < (M : WithBot ℚ) :=
        lt_of_le_of_ne (WithBot.coe_le_coe.mpr hmem0)
          (by simpa [WithBot.coe_eq_coe] using hcM)
      have hmax_rest : (l.map Prod.snd).maximum = some M := by
        rw [List.map_cons, List.maximum_cons] at hM
        rcases max_choice ((c.2 : WithBot ℚ)) ((l.map Prod.snd).maximum) with hch | hch
        · rw [hch] at hM
          exact absurd hM (ne_of_lt hlt)
        · rw [hch] at hM
          exact hM
      have hfind : ((c :: l).find? fun x => decide (x.2 = M))
          = (l.find? fun x => decide (x.2 = M)) :=
        List.find?_cons_of_neg _ (by simp [hcM])
      simp only [selectAux]
      by_cases hbc : b < (c.2 : WithBot ℚ)
      · rw [if_pos hbc, hfind]
        exact selectAux_finds_first_max l (some c.1) (c.2 : WithBot ℚ) M hmax_rest hlt
      · rw [if_neg hbc, hfind]
        exact selectAux_finds_first_max l best b M hmax_rest hb

/-- Building `performance_dict` over distinct keys never hits the
replacement branch: the dict is the list of `(q, run q)` in order. -/
lemma performanceDict_of_nodup {β : Type} (run : ℚ → β) :
    ∀ (qs : List ℚ) (acc : List (ℚ × β)), qs.Nodup →
      (∀ q ∈ qs, ∀ p ∈ acc, p.1 ≠ q) →
      qs.foldl (fun a q => dictInsert a q (run q)) acc
        = acc ++ qs.map (fun q => (q, run q))
  | [], acc, _, _ => by simp
  | q :: qs, acc, hnd, hfresh => by
    rw [List.foldl_cons]
    have hnone : acc.any (fun p => p.1 == q) = false := by
      rw [List.any_eq_false]
      intro p hp
      simpa using hfresh q (by simp) p hp
    have hins : dictInsert acc q (run q) = acc ++ [(q, run q)] := by
      rw [dictInsert, if_neg (by rw [hnone]; exact Bool.false_ne_true)]
    rw [hins, performanceDict_of_nodup run qs (acc ++ [(q, run q)])
      (List.nodup_cons.mp hnd).2 ?_]
    · simp
    · intro q' hq' p hp
      rcases List.mem_append.mp hp with hpa | hpq
      · exact hfresh q' (by simp [hq']) p hpa
      · have hpq' : p = (q, run q) := by simpa using hpq
        rw [hpq']
        intro hqq'
        have hq2 : q = q' := hqq'
        apply (List.nodup_cons.mp hnd).1
        rw [hq2]
        exact hq'

/-- C7.  In `adapt`, the committed model is the candidate with the
strictly highest validation score across `confidence_q_list` (of
distinct values), and on ties the first candidate in iteration order is
kept, because the comparator of line 169 is strict. -/
theorem adapt_selects_first_max {α : Type} (run : ℚ → α × ℚ) (qs : List ℚ) (M : ℚ)
    (hnd : qs.Nodup) (hM : ((qs.map run).map Prod.snd).maximum = some M) :
    ∀ c, ((qs.map run).find? fun x => decide (x.2 = M)) = some c →
      adapt run qs = Except.ok c.1 := by
  intro c hc
  have hdict : performanceDict run qs = qs.map (fun q => (q, run q)) := by
    have := performanceDict_of_nodup run qs [] hnd (by simp)
    simpa [performanceDict] using this
  have hvals : (performanceDict run qs).map Prod.snd = qs.map run := by
    rw [hdict, List.map_map]
    rfl
  rw [adapt, hvals, selectAux_finds_first_max (qs.map run) none ⊥ M hM
    (WithBot.bot_lt_coe M), hc]
  rfl

/-- C7, witness: two candidates tied at score 7; the first (from
`confidence_q = 1`) is committed. -/
theorem adapt_selects_first_max_witness :
    adapt (fun q : ℚ => (q, (7 : ℚ))) [1, 2] = Except.ok 1 := by
  have hM : ((([1, 2] : List ℚ).map (fun q : ℚ => (q, (7 : ℚ)))).map Prod.snd).maximum
      = some 7 := by
    simp [List.maximum_cons]
    rfl
  exact adapt_selects_first_max (fun q : ℚ => (q, (7 : ℚ))) [1, 2] 7
    (by norm_num) hM (1, 7) (by simp [List.find?])

/-! ### C5 -/

/-- For a nonnegative rational, the `toNat` of its floor is below it. -/
lemma toNat_floor_le (p : ℚ) (hp : 0 ≤ p) : (((Int.floor p).toNat : ℕ) : ℚ) ≤ p := by
  have h2 : (((Int.floor p).toNat : ℤ) : ℚ) ≤ p := by
    rw [Int.toNat_of_nonneg (Int.floor_nonneg.mpr hp)]
    exact Int.floor_le p
  exact_mod_cast h2

/-- For a nonnegative rational, it is below its floor (as `toNat`) plus one. -/
lemma lt_toNat_floor_add_one (p : ℚ) (hp : 0 ≤ p) :
    p < (((Int.floor p).toNat : ℕ) : ℚ) + 1 := by
  have h2 : p < (((Int.floor p).toNat : ℤ) : ℚ) + 1 := by
    rw [Int.toNat_of_nonneg (Int.floor_nonneg.mpr hp)]
    exact Int.lt_floor_add_one p
  exact_mod_cast h2

/-- The floor (as `toNat`) of a rational below `N` is at most `N`. -/
lemma toNat_floor_le_of_le {p : ℚ} {N : ℕ} (h : p ≤ (N : ℚ)) : (Int.floor p).toNat ≤ N := by
  have h1 : Int.floor p ≤ (N : ℤ) := by
    have h2 := Int.floor_le_floor h
    rwa [Int.floor_natCast] at h2
  exact Int.toNat_le.mpr h1

/-- Entries of a sorted list are monotone in the position. -/
lemma sorted_getD_le (s : List ℚ) (hs : List.Sorted (· ≤ ·) s) (i j : ℕ)
    (hij : i ≤ j) (hj : j < s.length) : s.getD i 0 ≤ s.getD j 0 := by
  have hi : i < s.length := lt_of_le_of_lt hij hj
  rw [List.getD_eq_getElem?_getD, List.getElem?_eq_getElem hi,
    List.getD_eq_getElem?_getD, List.getElem?_eq_getElem hj, Option.getD_some, Option.getD_some]
  have h := List.Sorted.rel_get_of_le hs (Fin.mk_le_mk.mpr hij : (⟨i, hi⟩ : Fin s.length) ≤ ⟨j, hj⟩)
  simpa [List.get_eq_getElem] using h

/-- The interpolated quantile of a sorted nonempty list is monotone in
the quantile point. -/
lemma quantileSorted_mono (s : List ℚ) (hs : List.Sorted (· ≤ ·) s) (hne : s ≠ [])
    (q1 q2 : ℚ) (h0 : 0 ≤ q1) (h12 : q1 ≤ q2) (h21 : q2 ≤ 1) :
    quantileSorted s q1 ≤ quantileSorted s q2 := by
  have hn1 : 1 ≤ s.length := List.length_pos.mpr hne
  simp only [quantileSorted]
  set N : ℕ := s.length - 1 with hN
  set p1 : ℚ := q1 * (N : ℚ) with hp1
  set p2 : ℚ := q2 * (N : ℚ) with hp2
  set i1 : ℕ := (Int.floor p1).toNat with hi1
  set i2 : ℕ := (Int.floor p2).toNat with hi2
  have hNnn : (0 : ℚ) ≤ (N : ℚ) := Nat.cast_nonneg N
  have h0q2 : 0 ≤ q2 := le_trans h0 h12
  have hp1nn : 0 ≤ p1 := mul_nonneg h0 hNnn
  have hp2nn : 0 ≤ p2 := mul_nonneg h0q2 hNnn
  have hp12 : p1 ≤ p2 := mul_le_mul_of_nonneg_right h12 hNnn
  have hp2N : p2 ≤ (N : ℚ) := by
    calc p2 = q2 * (N : ℚ) := hp2
    _ ≤ 1 * (N : ℚ) := mul_le_mul_of_nonneg_right h21 hNnn
    _ = (N : ℚ) := one_mul _
  have hil1 : ((i1 : ℕ) : ℚ) ≤ p1 := toNat_floor_le p1 hp1nn
  have hiu1 : p1 < ((i1 : ℕ) : ℚ) + 1 := lt_toNat_floor_add_one p1 hp1nn
  have hil2 : ((i2 : ℕ) : ℚ) ≤ p2 := toNat_floor_le p2 hp2nn
  have hi12 : i1 ≤ i2 := Int.toNat_le_toNat (Int.floor_le_floor hp12)
  have hi2N : i2 ≤ N := toNat_floor_le_of_le hp2N
  have hi1N : i1 ≤ N := le_trans hi12 hi2N
  have hNlt : N < s.length := Nat.sub_lt (lt_of_lt_of_le one_pos hn1) one_pos
  have ha1b1 : s.getD i1 0 ≤ s.getD (min (i1 + 1) N) 0 :=
    sorted_getD_le s hs i1 (min (i1 + 1) N) (le_min (Nat.le_succ i1) hi1N)
      (lt_of_le_of_lt (min_le_right _ _) hNlt)
  have ha2b2 : s.getD i2 0 ≤ s.getD (min (i2 + 1) N) 0 :=
    sorted_getD_le s hs i2 (min (i2 + 1) N) (le_min (Nat.le_succ i2) hi2N)
      (lt_of_le_of_lt (min_le_right _ _) hNlt)
  rcases Nat.lt_or_ge i1 i2 with hlt | hge
  · have hv1 : s.getD i1 0 + (p1 - ((i1 : ℕ) : ℚ)) * (s.getD (min (i1 + 1) N) 0 - s.getD i1 0)
        ≤ s.getD (min (i1 + 1) N) 0 := by
      have hm := mul_le_mul_of_nonneg_right
        (show p1 - ((i1 : ℕ) : ℚ) ≤ 1 by linarith)
        (sub_nonneg.mpr ha1b1)
      linarith
    have hmid : s.getD (min (i1 + 1) N) 0 ≤ s.getD i2 0 :=
      sorted_getD_le s hs (min (i1 + 1) N) i2
        (le_trans (min_le_left _ _) (Nat.succ_le_of_lt hlt))
        (lt_of_le_of_lt hi2N hNlt)
    have hv2 : s.getD i2 0
        ≤ s.getD i2 0 + (p2 - ((i2 : ℕ) : ℚ)) * (s.getD (min (i2 + 1) N) 0 - s.getD i2 0) := by
      have hm := mul_nonneg (show 0 ≤ p2 - ((i2 : ℕ) : ℚ) by linarith)
        (sub_nonneg.mpr ha2b2)
      linarith
    linarith
  · have heq : i1 = i2 := le_antisymm hi12 hge
    rw [← heq]
    have hm := mul_le_mul_of_nonneg_right
      (sub_le_sub_right hp12 ((i1 : ℕ) : ℚ)) (sub_nonneg.mpr ha1b1)
    linarith

/-- C5.  For a fixed store snapshot and a fixed loader, `_calc_alpha` is
monotone non decreasing in `confidence_q`: for `0 ≤ q1 ≤ q2 ≤ 1`, the
alpha at `q1` is at most the alpha at `q2` (quantile monotonicity). -/
theorem calc_alpha_monotone (Z : Nat → List ℚ) (loader : List (List Nat)) (q1 q2 a1 a2 : ℚ)
    (h0 : 0 ≤ q1) (h12 : q1 ≤ q2) (h21 : q2 ≤ 1)
    (e1 : calc_alpha Z loader q1 = Except.ok a1)
    (e2 : calc_alpha Z loader q2 = Except.ok a2) : a1 ≤ a2 := by
  simp only [calc_alpha] at e1 e2
  by_cases hl : loader.isEmpty
  · rw [if_pos hl] at e1
    simp at e1
  · rw [if_neg hl] at e1 e2
    by_cases hf : loader.flatten.isEmpty
    · rw [if_pos hf] at e1
      simp at e1
    · rw [if_neg hf] at e1 e2
      have h1 : a1 = torchQuantile (loader.flatten.map fun i => amax (Z i) - amin (Z i)) q1 :=
        (Except.ok.inj e1).symm
      have h2 : a2 = torchQuantile (loader.flatten.map fun i => amax (Z i) - amin (Z i)) q2 :=
        (Except.ok.inj e2).symm
      rw [h1, h2, torchQuantile, torchQuantile]
      have hlen : ((loader.flatten.map fun i => amax (Z i) - amin (Z i)).insertionSort
          (· ≤ ·)).length = loader.flatten.length := by
        rw [List.length_insertionSort, List.length_map]
      apply quantileSorted_mono _ (List.sorted_insertionSort _ _) _ q1 q2 h0 h12 h21
      intro hemp
      have hzero := congrArg List.length hemp
      rw [hlen] at hzero
      simp only [List.length_nil] at hzero
      exact hf (List.isEmpty_iff.mpr (List.length_eq_zero.mp hzero))

/-- C5, witness: store rows `[1, 0]` for id 0 and `[1/2, 1/2]` for id 1
give the confidence sample `[1, 0]`; its 0 quantile is 0 and its 1
quantile is 1, and the theorem yields `0 ≤ 1`. -/
theorem calc_alpha_monotone_witness : (0 : ℚ) ≤ 1 :=
  calc_alpha_monotone (fun i => if i = 0 then [1, 0] else [1/2, 1/2]) [[0, 1]] 0 1 0 1
    le_rfl zero_le_one le_rfl
    (by norm_num [calc_alpha, torchQuantile, quantileSorted, List.insertionSort,
      List.orderedInsert, amax, amin])
    (by norm_num [calc_alpha, torchQuantile, quantileSorted, List.insertionSort,
      List.orderedInsert, amax, amin])

/-! ### C4 -/

/-- Sums distribute over the elementwise division of a list. -/
lemma sum_map_div (v : List ℚ) (c : ℚ) : (v.map (fun x => x / c)).sum = v.sum / c := by
  induction v with
  | nil => simp
  | cons h t ih => simp [ih, add_div]

/-- A row of nonnegative entries whose sum reaches the torch
normalization epsilon has an L1 normalization of sum exactly one. -/
lemma l1normalize_sum_one (v : List ℚ) (hv : ∀ x ∈ v, 0 ≤ x)
    (hs : (1/10^12 : ℚ) ≤ v.sum) : (l1normalize v).sum = 1 := by
  have habs : v.map (fun y => |y|) = v := by
    calc v.map (fun y => |y|) = v.map id :=
      List.map_congr_left (fun x hx => abs_of_nonneg (hv x hx))
    _ = v := List.map_id v
  have hpos : 0 < v.sum := lt_of_lt_of_le (by norm_num) hs
  have hmax : max ((v.map (fun y => |y|)).sum) (1/10^12 : ℚ) = v.sum := by
    rw [habs]
    exact max_eq_left hs
  rw [l1normalize, hmax, sum_map_div]
  exact div_self (ne_of_gt hpos)

/-- A momentum blend of nonnegative rows is nonnegative. -/
lemma blend_nonneg (m : ℚ) (hm0 : 0 ≤ m) (hm1 : m ≤ 1) :
    ∀ (a b : List ℚ), (∀ x ∈ a, 0 ≤ x) → (∀ x ∈ b, 0 ≤ x) → ∀ x ∈ blend m a b, 0 ≤ x
  | [], _, _, _ => by simp [blend]
  | _ :: _, [], _, _ => by simp [blend]
  | u :: a, w :: b, ha, hb => by
    intro x hx
    rw [blend, List.zipWith_cons_cons] at hx
    rcases List.mem_cons.mp hx with rfl | hx2
    · have hu : 0 ≤ u := ha u (by simp)
      have hw : 0 ≤ w := hb w (by simp)
      have h1m : 0 ≤ 1 - m := by linarith
      exact add_nonneg (mul_nonneg hm0 hu) (mul_nonneg h1m hw)
    · exact blend_nonneg m hm0 hm1 a b (fun y hy => ha y (by simp [hy]))
        (fun y hy => hb y (by simp [hy])) x (by rw [blend]; exact hx2)

/-- Transitivity of the untouched-or-normalized row relation. -/
lemma storeD_trans {s t u : Store}
    (h1 : ∀ i, (t.Z i = s.Z i ∧ t.z i = s.z i) ∨ t.z i = l1normalize (t.Z i))
    (h2 : ∀ i, (u.Z i = t.Z i ∧ u.z i = t.z i) ∨ u.z i = l1normalize (u.Z i)) :
    ∀ i, (u.Z i = s.Z i ∧ u.z i = s.z i) ∨ u.z i = l1normalize (u.Z i) := by
  intro i
  rcases h2 i with ⟨hZ2, hz2⟩ | h2r
  · rcases h1 i with ⟨hZ1, hz1⟩ | h1r
    · exact Or.inl ⟨hZ2.trans hZ1, hz2.trans hz1⟩
    · exact Or.inr (by rw [hz2, hZ2]; exact h1r)
  · exact Or.inr h2r

/-- One batch update keeps `Z` nonnegative and leaves every row either
untouched or freshly normalized. -/
lemma applyBatch_inv (mp : Nat → List ℚ) (m : ℚ) (ids : List Nat) (s : Store)
    (hm0 : 0 ≤ m) (hm1 : m ≤ 1) (hmp : ∀ i, ∀ x ∈ mp i, 0 ≤ x)
    (hZ : ∀ i, ∀ x ∈ s.Z i, 0 ≤ x) :
    (∀ i, ∀ x ∈ (applyBatch mp m ids s).Z i, 0 ≤ x)
    ∧ ∀ i, ((applyBatch mp m ids s).Z i = s.Z i ∧ (applyBatch mp m ids s).z i = s.z i)
        ∨ (applyBatch mp m ids s).z i = l1normalize ((applyBatch mp m ids s).Z i) := by
  constructor
  · intro i x hx
    by_cases hi : i ∈ ids
    · rw [show (applyBatch mp m ids s).Z i = blend m (s.Z i) (mp i) from by
        simp [applyBatch, if_pos hi]] at hx
      exact blend_nonneg m hm0 hm1 (s.Z i) (mp i) (hZ i) (hmp i) x hx
    · rw [show (applyBatch mp m ids s).Z i = s.Z i from by
        simp [applyBatch, if_neg hi]] at hx
      exact hZ i x hx
  · intro i
    by_cases hi : i ∈ ids
    · right
      simp [applyBatch, if_pos hi]
    · left
      constructor <;> simp [applyBatch, if_neg hi]

/-- The inner update loop keeps `Z` nonnegative and leaves every row
either untouched or freshly normalized. -/
lemma applyLoader_inv (mp : Nat → List ℚ) (m : ℚ) (hm0 : 0 ≤ m) (hm1 : m ≤ 1)
    (hmp : ∀ i, ∀ x ∈ mp i, 0 ≤ x) :
    ∀ (loader : List (List Nat)) (s : Store), (∀ i, ∀ x ∈ s.Z i, 0 ≤ x) →
      (∀ i, ∀ x ∈ (applyLoader mp m loader s).Z i, 0 ≤ x)
      ∧ ∀ i, ((applyLoader mp m loader s).Z i = s.Z i
            ∧ (applyLoader mp m loader s).z i = s.z i)
          ∨ (applyLoader mp m loader s).z i = l1normalize ((applyLoader mp m loader s).Z i)
  | [], s, hZ => ⟨hZ, fun _ => Or.inl ⟨rfl, rfl⟩⟩
  | ids :: rest, s, hZ => by
    have hb := applyBatch_inv mp m ids s hm0 hm1 hmp hZ
    have hr := applyLoader_inv mp m hm0 hm1 hmp rest (applyBatch mp m ids s) hb.1
    exact ⟨hr.1, storeD_trans hb.2 hr.2⟩

/-- Invariant of the `_update_Z` loop: starting from a nonnegative store
and any in range carried momentum, the result store is nonnegative and
every row is either untouched or freshly normalized from its `Z` row. -/
lemma update_Z_aux_inv (ent : List (List ℚ) → ℚ) (mp : Nat → List ℚ) (slope : ℚ) (di : Nat)
    (hmp : ∀ i, ∀ x ∈ mp i, 0 ≤ x) :
    ∀ (loaders : List (Nat × List (List Nat))) (mom : Option ℚ) (s s' : Store),
      update_Z_aux ent mp slope di loaders mom s = Except.ok s' →
      (∀ m, mom = some m → 0 ≤ m ∧ m ≤ 1) →
      (∀ i, ∀ x ∈ s.Z i, 0 ≤ x) →
      (∀ i, ∀ x ∈ s'.Z i, 0 ≤ x)
      ∧ ∀ i, (s'.Z i = s.Z i ∧ s'.z i = s.z i) ∨ s'.z i = l1normalize (s'.Z i)
  | [], mom, s, s', hok, _, hZ => by
    simp only [update_Z_aux] at hok
    cases hok
    exact ⟨hZ, fun _ => Or.inl ⟨rfl, rfl⟩⟩
  | (d, loader) :: rest, mom, s, s', hok, hmom, hZ => by
    simp only [update_Z_aux] at hok
    by_cases hd : d < di
    · rw [if_pos hd] at hok
      exact update_Z_aux_inv ent mp slope di hmp rest mom s s' hok hmom hZ
    · rw [if_neg hd] at hok
      set momN : Option ℚ :=
        if d = di then
          some (momentum slope di (ent (gatherCur mp loader)) (ent (gatherEns s loader)))
        else mom with hmomN
      have hmomN_inv : ∀ m, momN = some m → 0 ≤ m ∧ m ≤ 1 := by
        intro m hm
        rw [hmomN] at hm
        by_cases hdd : d = di
        · rw [if_pos hdd] at hm
          rw [← Option.some.inj hm]
          exact momentum_mem_unit _ _ _ _
        · rw [if_neg hdd] at hm
          exact hmom m hm
      cases hcase : momN with
      | none =>
        rw [hcase] at hok
        exact absurd hok (by simp)
      | some m =>
        rw [hcase] at hok
        have hmm := hmomN_inv m hcase
        have hl := applyLoader_inv mp m hmm.1 hmm.2 hmp loader s hZ
        have hr := update_Z_aux_inv ent mp slope di hmp rest (some m)
          (applyLoader mp m loader s) s' hok
          (fun m' hm' => by rw [← Option.some.inj hm']; exact hmm) hl.1
        exact ⟨hr.1, storeD_trans hl.2 hr.2⟩

/-- C4, amended.  After every (successful) call to the store update,
with nonnegative store rows and nonnegative model outputs, every row is
either untouched (both `Z` and `z` unchanged) or normalized: its `z` row
is the L1 normalization of its `Z` row and, provided the updated `Z` row
has an L1 norm at least the `F.normalize` epsilon `1e-12`, the `z` row
sums to exactly 1 (hence within the `1e-6` tolerance).  The claimed
precondition `Z row not all zero` is not sufficient: a nonzero row of
norm below `1e-12` is divided by the epsilon instead of its norm. -/
theorem update_Z_touched_rows_normalized (ent : List (List ℚ) → ℚ) (mp : Nat → List ℚ)
    (slope : ℚ) (loaders : List (Nat × List (List Nat))) (di : Nat) (s s' : Store)
    (hZ : ∀ i, ∀ x ∈ s.Z i, 0 ≤ x) (hmp : ∀ i, ∀ x ∈ mp i, 0 ≤ x)
    (hok : update_Z ent mp slope loaders di s = Except.ok s') :
    ∀ i, (s'.Z i = s.Z i ∧ s'.z i = s.z i)
      ∨ (s'.z i = l1normalize (s'.Z i)
          ∧ ((1/10^12 : ℚ) ≤ (s'.Z i).sum → (s'.z i).sum = 1)) := by
  have h := update_Z_aux_inv ent mp slope di hmp loaders none s s' hok
    (fun m hm => by cases hm) hZ
  intro i
  rcases h.2 i with hleft | hright
  · exact Or.inl hleft
  · refine Or.inr ⟨hright, fun hs => ?_⟩
    rw [hright]
    exact l1normalize_sum_one (s'.Z i) (h.1 i) hs

/-- The entropy oracle of the C4 counterexample: tuned so that the
momentum of the update comes out as `1 - 2 ^ (-50)`. -/
def cexEnt : List (List ℚ) → ℚ := fun ps => if ps = [[1, 0]] then 1/2 - 1/2 ^ 50 else 0

/-- The model softmax outputs of the C4 counterexample. -/
def cexProbs : Nat → List ℚ := fun _ => [1, 0]

/-- The initial store of the C4 counterexample (all rows zero, the
initialization the spec prescribes for `Z`). -/
def cexStore : Store := ⟨fun _ => [0, 0], fun _ => [0, 0]⟩

/-- C4, counterexample.  The claim asks that every touched `z` row of a
nonzero `Z` row sums to 1 within `1e-6`.  One update at `domain_idx = 2`
with momentum `1 - 2 ^ (-50)` leaves `Z[0] = [2 ^ (-50), 0]`, which is not
all zero but has L1 norm below the `F.normalize` epsilon `1e-12`; the
normalized row then sums to `10 ^ 12 / 2 ^ 50`, off from 1 by far more
than `1e-6`. -/
theorem update_Z_z_row_sum_counterexample :
    ((update_Z cexEnt cexProbs 1 [(2, [[0]])] 2 cexStore).toOption.map
        (fun t => (t.Z 0, (t.z 0).sum))) = some (([1/2 ^ 50, 0] : List ℚ), 10 ^ 12 / 2 ^ 50)
    ∧ (1/2 ^ 50 : ℚ) ≠ 0
    ∧ ¬(|((10 : ℚ) ^ 12 / 2 ^ 50) - 1| ≤ 1/10 ^ 6) := by
  refine ⟨?_, by norm_num, by rw [abs_sub_comm, abs_of_nonneg (by norm_num)]; norm_num⟩
  norm_num [update_Z, update_Z_aux, momentum, torchClip, applyLoader, applyBatch, blend,
    l1normalize, gatherCur, gatherEns, cexEnt, cexProbs, cexStore, Except.toOption,
    min_def, max_def]
  rw [if_pos (by
    rw [abs_of_nonneg (by norm_num : (0 : ℚ) ≤ 1/1125899906842624)]
    norm_num)]
  norm_num

/-- C4, witness for the amended theorem: an update at the first domain
(momentum 0) writes `Z[0] = [1, 0]`, of norm well above the epsilon; the
theorem gives that its `z` row sums to exactly 1. -/
theorem update_Z_touched_rows_normalized_witness :
    ((update_Z (fun _ => (0 : ℚ)) (fun _ => [1, 0]) 0 [(1, [[0]])] 1
        ⟨fun _ => [0, 0], fun _ => [0, 0]⟩).toOption.map (fun t => (t.z 0).sum)) = some 1 := by
  obtain ⟨t, ht⟩ : ∃ t, update_Z (fun _ => (0 : ℚ)) (fun _ => [1, 0]) 0 [(1, [[0]])] 1
      ⟨fun _ => [0, 0], fun _ => [0, 0]⟩ = Except.ok t := ⟨_, rfl⟩
  have hcomp : (Except.ok t : Except String Store).toOption.map
      (fun u => (u.Z 0, u.z 0)) = some ([1, 0], [1, 0]) := by
    rw [← ht]
    norm_num [update_Z, update_Z_aux, momentum, torchClip, applyLoader, applyBatch, blend,
      l1normalize, gatherCur, gatherEns, Except.toOption, min_def, max_def]
  simp only [Except.toOption, Option.map] at hcomp
  have hZ0 : t.Z 0 = [1, 0] := congrArg Prod.fst (Option.some.inj hcomp)
  have hz0 : t.z 0 = [1, 0] := congrArg Prod.snd (Option.some.inj hcomp)
  have h := update_Z_touched_rows_normalized (fun _ => (0 : ℚ)) (fun _ => [1, 0]) 0
    [(1, [[0]])] 1 ⟨fun _ => [0, 0], fun _ => [0, 0]⟩ t
    (fun _ x hx => by simpa using (by rcases (by simpa using hx : x = 0 ∨ x = 0) with h | h <;>
      simp [h]))
    (fun _ x hx => by rcases (by simpa using hx : x = 1 ∨ x = 0) with h | h <;> simp [h])
    ht 0
  rcases h with ⟨_, hzeq⟩ | ⟨_, hsum⟩
  · rw [hz0] at hzeq
    have : ([1, 0] : List ℚ) = [0, 0] := hzeq
    simp at this
  · rw [ht]
    simp only [Except.toOption, Option.map]
    rw [hsum (by rw [hZ0]; norm_num)]
